import Mathlib

/-!
Verification of the chizu cache layer and analysis pipeline (src/index.ts).

The on-disk LMDB database is modelled as an association list from keys
(absolute file paths, as strings) to cache entries, kept sorted by key in
strictly increasing string order: LMDB stores entries sorted by key and
`getRange e start f` iterates, in sorted key order, the entries whose key is
at least `start`.  Reads (`db.get`), upserts (`db.put`) and removals are
point operations on that list.

The analysis pipeline (`AnalysisService.run`) is modelled by explicit state
passing.  Within a batch the real code runs the per-file work concurrently
via `Promise.all`, but every cache read and write of a given task touches
only that task's own file path key, so for distinct paths the concurrent
batch is equivalent to processing the batch in order; the model processes
the files of a batch sequentially, in batch order.  External collaborators
are parameters of the model (an `Env` record): the file system is a total
map from path to content, the xxhash fingerprint function is an abstract
function on strings, the `code-chopper` extractor is an abstract function of
the relative path and of the file content it reads, and `path.relative` is
an abstract function of the target root and the file path.

A second, fallible environment (`EnvE`) in which file reads and extraction
return `Except` values models the error semantics (rejected promises): a
batch is a strict sequence of fallible steps and the first failure aborts
the whole run, propagating the original error value unchanged.

For the concurrency-bound claim, a small trace model is used: an execution
of one batch is any event list that mentions only the files of that batch
and finishes every file of the batch; an execution of a run is the
concatenation of one such trace per batch, which reflects that the code
awaits the whole `Promise.all` group of batch N before starting batch N+1.
-/

/-- Metadata attached by the extractor to one chunk (docs and nesting path). -/
structure Boundary where
  docs : Option String
  parent : List String
deriving DecidableEq

/-- One extracted entity chunk, as produced by the code-chopper collaborator. -/
structure BoundaryChunk where
  content : String
  boundary : Boundary
deriving DecidableEq

/-- One stored cache value: the content fingerprint together with the chunks
extracted when that fingerprint was current.  This is the object stored by
`this.db.put(fullPath, \x7b hash, chunks \x7d)`. -/
structure CacheEntry where
  hash : String
  chunks : List BoundaryChunk
deriving DecidableEq

/-- Lexicographic comparison of character lists, the key order of the
store.  An executable definition is used (rather than the noncomputable
order of the ambient library) so that concrete instances can be checked by
evaluation; it is proved below to agree with the lexicographic order. -/
def charListLt : List Char → List Char → Bool
  | _, [] => false
  | [], _ :: _ => true
  | a :: as, b :: bs => if a < b then true else if b < a then false else charListLt as bs

/-- Lexicographic comparison of string keys. -/
def strLt (a b : String) : Bool :=
  charListLt a.data b.data

/-- The LMDB database: an association list from string keys to entries,
kept sorted by key in strictly increasing order. -/
abbrev Db := List (String × CacheEntry)

/-- Sortedness invariant of the store: keys strictly increase. -/
def DbSorted (db : Db) : Prop :=
  db.Pairwise (fun p q => strLt p.1 q.1 = true)

/-- Point lookup, modelling `this.db.get(fullPath)`. -/
def dbGet : Db → String → Option CacheEntry
  | [], _ => none
  | (k, e) :: rest, q => if q = k then some e else dbGet rest q

/-- Upsert, modelling `this.db.put(key, value)`: last write wins, the whole
entry is replaced, and the sorted key order is maintained. -/
def dbPut : Db → String → CacheEntry → Db
  | [], k, e => [(k, e)]
  | (k', e') :: rest, k, e =>
    if strLt k k' then (k, e) :: (k', e') :: rest
    else if k = k' then (k, e) :: rest
    else (k', e') :: dbPut rest k e

/-- CacheRepository.getCachedChunks: return the stored chunks only when an
entry is present and its stored fingerprint equals the current hash;
otherwise return null (here `none`). -/
def getCachedChunks (db : Db) (fullPath : String) (currentHash : String) :
    Option (List BoundaryChunk) :=
  match dbGet db fullPath with
  | some cached => if cached.hash = currentHash then some cached.chunks else none
  | none => none

/-- CacheRepository.saveChunks: overwrite the full entry for the key. -/
def saveChunks (db : Db) (fullPath : String) (hash : String)
    (chunks : List BoundaryChunk) : Db :=
  dbPut db fullPath ⟨hash, chunks⟩

/-- JavaScript `key.startsWith(prefixStr)`, at character granularity. -/
def startsWith (pre s : String) : Bool :=
  pre.data.isPrefixOf s.data

/-- CacheRepository.clearDirectoryCache: iterate, in sorted key order, the
entries whose key is at least the (already resolved, absolute) directory
path; remove each visited entry whose key starts with that path and stop at
the first key that does not.  Returns the new database and the number of
removed entries.  `path.resolve` is modelled as the identity on the already
absolute argument. -/
def clearDirectoryCache (db : Db) (dirPath : String) : Db × Nat :=
  let range := db.dropWhile (fun p => strLt p.1 dirPath)
  let removedKeys := (range.takeWhile (fun p => startsWith dirPath p.1)).map (fun p => p.1)
  (db.filter (fun p => decide (p.1 ∉ removedKeys)), removedKeys.length)

/-- CacheRepository.clearAll: remove every entry. -/
def clearAll (_db : Db) : Db :=
  []

/-- One syntactic node as seen by the chopper filter: only its kind label
(`node.type`) is inspected. -/
structure ChopperNode where
  type : String
deriving DecidableEq

/-- JavaScript `s.includes(sub)`: substring containment. -/
def jsIncludes (s sub : String) : Bool :=
  decide (sub.data <:+: s.data)

/-- The default filter passed to the extractor by the pipeline:
`(_, node) => !node.type.includes("import")`.  The first argument is the
(ignored) context. -/
def chopperFilter (_ctx : Unit) (node : ChopperNode) : Bool :=
  ! jsIncludes node.type ("import")

/-- The external collaborators of the pipeline, as total functions:
`content` is the file system (path to file content, `fs.promises.readFile`),
`hash` is the xxhash h64 fingerprint (`CacheRepository.getHash`), `extract`
is `readFileAndChunk` viewed as a function of the relative path and of the
content it reads from disk, and `relative` is `path.relative`. -/
structure Env where
  content : String → String
  hash : String → String
  extract : String → String → List BoundaryChunk
  relative : String → String → String

/-- The mutable state threaded through a run: the cache database plus the
list of file paths for which the extractor has been invoked, in invocation
order (the instrumentation for counting extractor calls). -/
structure CacheState where
  db : Db
  extracted : List String
deriving DecidableEq

/-- Fingerprint of the current content of a file. -/
def hashOf (env : Env) (filePath : String) : String :=
  env.hash (env.content filePath)

/-- The chunks the run associates to a file given a database: the stored
chunks on a cache hit, the freshly extracted ones on a miss. -/
def chunkOf (env : Env) (targetPath : String) (db : Db) (filePath : String) :
    List BoundaryChunk :=
  match getCachedChunks db filePath (hashOf env filePath) with
  | some chunks => chunks
  | none => env.extract (env.relative targetPath filePath) (env.content filePath)

/-- The per-file body of `AnalysisService.run`: read the content, hash it,
consult the cache by full path; on a miss invoke the extractor and save the
fresh entry.  Returns the new state and the `\x7b relativePath, chunks \x7d`
record of the batch result. -/
def processFile (env : Env) (targetPath : String) (cs : CacheState)
    (filePath : String) : CacheState × (String × List BoundaryChunk) :=
  let relativePath := env.relative targetPath filePath
  let content := env.content filePath
  let hash := env.hash content
  match getCachedChunks cs.db filePath hash with
  | some chunks => (cs, (relativePath, chunks))
  | none =>
      let chunks := env.extract relativePath content
      ({ db := saveChunks cs.db filePath hash chunks,
         extracted := cs.extracted ++ [filePath] },
       (relativePath, chunks))

/-- One batch of `AnalysisService.run`: the per-key-disjoint sequential
rendering of the `Promise.all` group, producing the batch result list in
batch order. -/
def processBatch (env : Env) (targetPath : String) :
    CacheState → List String → CacheState × List (String × List BoundaryChunk)
  | cs, [] => (cs, [])
  | cs, filePath :: rest =>
      let step := processFile env targetPath cs filePath
      let tail := processBatch env targetPath step.1 rest
      (tail.1, step.2 :: tail.2)

/-- The aggregated result: a JavaScript `Map`, i.e. an insertion-ordered
association list from relative path to chunks. -/
abbrev FileMap := List (String × List BoundaryChunk)

/-- JavaScript `Map.prototype.set`: replace the value in place when the key
is already present, append the binding otherwise. -/
def mapSet (m : FileMap) (k : String) (v : List BoundaryChunk) : FileMap :=
  if m.any (fun p => p.1 = k) then
    m.map (fun p => if p.1 = k then (k, v) else p)
  else
    m ++ [(k, v)]

/-- Merging one batch result into the map: only files with at least one
chunk are inserted (`if (chunks.length > 0) fileMap.set(...)`). -/
def mergeOne (m : FileMap) (r : String × List BoundaryChunk) : FileMap :=
  if r.2.length > 0 then mapSet m r.1 r.2 else m

/-- Merging a whole batch result list into the map, in batch order. -/
def mergeResults (m : FileMap) (rs : List (String × List BoundaryChunk)) : FileMap :=
  rs.foldl mergeOne m

/-- The batch partition of the loop
`for (let i = 0; i < filePaths.length; i += batchSize)` with
`slice(i, i + batchSize)`: consecutive chunks of at most `b` elements.
With `b = 0` the JavaScript loop would not terminate; the model returns the
degenerate one-chunk partition in that case, which no claim relies on. -/
def chunkList : Nat → List α → List (List α)
  | _, [] => []
  | 0, l => [l]
  | b + 1, h :: t => (h :: t).take (b + 1) :: chunkList (b + 1) ((h :: t).drop (b + 1))
termination_by _ l => l.length
decreasing_by simp [List.length_drop]; omega

/-- AnalysisService.run, starting from a given database, with explicit batch
size: process the batches strictly in order, merging each batch result into
the file map after the batch completes; return the final cache state and
the aggregated map. -/
def runFrom (env : Env) (targetPath : String) (filePaths : List String)
    (batchSize : Nat) (db0 : Db) : CacheState × FileMap :=
  (chunkList batchSize filePaths).foldl
    (fun acc batch =>
      let done := processBatch env targetPath acc.1 batch
      (done.1, mergeResults acc.2 done.2))
    (⟨db0, []⟩, [])

/-- AnalysisService.run with the default batch size of 50. -/
def run (env : Env) (targetPath : String) (filePaths : List String)
    (db0 : Db) : CacheState × FileMap :=
  runFrom env targetPath filePaths 50 db0

/-- The unbatched rendering of a run: process every file in order, then
merge the whole result list.  The flattening lemma below shows `runFrom`
equals this for every batch size. -/
def runAll (env : Env) (targetPath : String) (filePaths : List String)
    (db0 : Db) : CacheState × FileMap :=
  let done := processBatch env targetPath ⟨db0, []⟩ filePaths
  (done.1, mergeResults [] done.2)

/-- The collaborators with fallible I/O: a file read or an extraction may
fail (a rejected promise) with an error value of type `ε`. -/
structure EnvE (ε : Type) where
  content : String → Except ε String
  hash : String → String
  extract : String → String → Except ε (List BoundaryChunk)
  relative : String → String → String

/-- The per-file body of the run with fallible I/O.  Errors are neither
caught, wrapped nor retried: the original error value is returned as is
(the explicit matches spell out the monadic bind of `Except`). -/
def processFileE (env : EnvE ε) (targetPath : String) (cs : CacheState)
    (filePath : String) :
    Except ε (CacheState × (String × List BoundaryChunk)) :=
  let relativePath := env.relative targetPath filePath
  match env.content filePath with
  | .error err => .error err
  | .ok content =>
    let hash := env.hash content
    match getCachedChunks cs.db filePath hash with
    | some chunks => .ok (cs, (relativePath, chunks))
    | none =>
      match env.extract relativePath content with
      | .error err => .error err
      | .ok chunks =>
        .ok ({ db := saveChunks cs.db filePath hash chunks,
               extracted := cs.extracted ++ [filePath] },
             (relativePath, chunks))

/-- One batch with fallible I/O: the strict sequence of the per-file steps
in batch order; the first failing step aborts the batch and its error is
the error of the whole group, as with `Promise.all`. -/
def processBatchE (env : EnvE ε) (targetPath : String) :
    CacheState → List String →
    Except ε (CacheState × List (String × List BoundaryChunk))
  | cs, [] => .ok (cs, [])
  | cs, filePath :: rest =>
      match processFileE env targetPath cs filePath with
      | .error err => .error err
      | .ok step =>
        match processBatchE env targetPath step.1 rest with
        | .error err => .error err
        | .ok tail => .ok (tail.1, step.2 :: tail.2)

/-- AnalysisService.run with fallible I/O: a failure inside any batch aborts
the whole run with the original error; no partial map is returned. -/
def runE (env : EnvE ε) (targetPath : String) (filePaths : List String)
    (batchSize : Nat) (db0 : Db) : Except ε (CacheState × FileMap) :=
  (chunkList batchSize filePaths).foldl
    (fun acc batch =>
      match acc with
      | .error err => .error err
      | .ok st =>
        match processBatchE env targetPath st.1 batch with
        | .error err => .error err
        | .ok done => .ok (done.1, mergeResults st.2 done.2))
    (.ok (⟨db0, []⟩, []))

/-- An event of the concurrency trace model: a file operation (read plus
extraction) starts, or it finishes. -/
inductive FileEv where
  | start (filePath : String)
  | finish (filePath : String)
deriving DecidableEq

/-- The file an event belongs to. -/
def FileEv.file : FileEv → String
  | .start fp => fp
  | .finish fp => fp

/-- How many of the given files are in flight after the event list `pref`:
started but not yet finished. -/
def inFlight (filePaths : List String) (pref : List FileEv) : Nat :=
  (filePaths.filter
    (fun fp => decide (FileEv.start fp ∈ pref) && ! decide (FileEv.finish fp ∈ pref))).length

/-- A possible execution trace of one concurrent batch group: an event list
that mentions only files of the batch and in which every file of the batch
finishes — `await Promise.all` returns only once every member settled. -/
def BatchTrace (batch : List String) (tr : List FileEv) : Prop :=
  (∀ e ∈ tr, e.file ∈ batch) ∧ (∀ fp ∈ batch, FileEv.finish fp ∈ tr)

/-- A possible execution of a whole run with batch size `b`: one batch trace
per batch, concatenated in batch order, reflecting that batch N+1 starts
only after the group of batch N fully resolved. -/
def ValidRunTrace (b : Nat) (filePaths : List String)
    (trs : List (List FileEv)) : Prop :=
  List.Forall₂ BatchTrace (chunkList b filePaths) trs

/-- A concrete environment used to instantiate the theorems: the identity
fingerprint, a file system in which the file /r/e is empty, an extractor
that yields one chunk per nonempty file and none for an empty one, and
relative paths equal to the full path. -/
def envW : Env where
  content := fun p => if p = "/r/e" then "" else p ++ "?"
  hash := fun c => c
  extract := fun rel c => if c = "" then [] else [⟨c, ⟨none, [rel]⟩⟩]
  relative := fun _ fp => fp

/-- A concrete starting database holding a stale entry for /r/a. -/
def db0W : Db :=
  [("/r/a", ⟨"old", [⟨"x", ⟨none, []⟩⟩]⟩)]

/-- A concrete fallible environment in which the file /r/bad cannot be
read and every other file behaves as in `envW`. -/
def envEW : EnvE String where
  content := fun p => if p = "/r/bad" then .error ("EACCES") else .ok (p ++ "?")
  hash := fun c => c
  extract := fun rel c => .ok [⟨c, ⟨none, [rel]⟩⟩]
  relative := fun _ fp => fp

theorem dbGet_dbPut (db : Db) (k q : String) (e : CacheEntry) :
    dbGet (dbPut db k e) q = if q = k then some e else dbGet db q := by
  induction db with
  | nil => simp [dbGet, dbPut]
  | cons hd rest ih =>
    obtain ⟨k', e'⟩ := hd
    simp only [dbPut]
    by_cases h1 : strLt k k' = true
    · simp only [if_pos h1, dbGet]
    · rw [if_neg h1]
      by_cases h2 : k = k'
      · rw [if_pos h2]
        subst h2
        by_cases hq : q = k
        · simp [dbGet, hq]
        · simp [dbGet, hq]
      · rw [if_neg h2]
        by_cases hq : q = k'
        · subst hq
          have hqk : q ≠ k := fun h => h2 h.symm
          simp [dbGet, hqk]
        · simp [dbGet, hq, ih]

theorem dbGet_dbPut_self (db : Db) (k : String) (e : CacheEntry) :
    dbGet (dbPut db k e) k = some e := by
  simp [dbGet_dbPut]

theorem dbGet_dbPut_ne (db : Db) (k q : String) (e : CacheEntry) (h : q ≠ k) :
    dbGet (dbPut db k e) q = dbGet db q := by
  simp [dbGet_dbPut, h]

theorem getCachedChunks_eq_some {db : Db} {k h : String} {c : List BoundaryChunk}
    (hc : getCachedChunks db k h = some c) : dbGet db k = some ⟨h, c⟩ := by
  unfold getCachedChunks at hc
  cases he : dbGet db k with
  | none => rw [he] at hc; exact absurd hc (by simp)
  | some e =>
    rw [he] at hc
    by_cases hh : e.hash = h
    · simp [hh] at hc
      cases e
      simp_all
    · simp [hh] at hc

theorem getCachedChunks_dbPut_self (db : Db) (k h : String)
    (c : List BoundaryChunk) :
    getCachedChunks (dbPut db k ⟨h, c⟩) k h = some c := by
  simp [getCachedChunks, dbGet_dbPut_self]

theorem getCachedChunks_ext {db db' : Db} {k : String}
    (hg : dbGet db' k = dbGet db k) (h : String) :
    getCachedChunks db' k h = getCachedChunks db k h := by
  simp [getCachedChunks, hg]

theorem processFile_hit {env : Env} {tp : String} {cs : CacheState}
    {fp : String} {c : List BoundaryChunk}
    (h : getCachedChunks cs.db fp (hashOf env fp) = some c) :
    processFile env tp cs fp = (cs, (env.relative tp fp, c)) := by
  have h' : getCachedChunks cs.db fp (env.hash (env.content fp)) = some c := h
  simp [processFile, h']

theorem processFile_miss {env : Env} {tp : String} {cs : CacheState}
    {fp : String}
    (h : getCachedChunks cs.db fp (hashOf env fp) = none) :
    processFile env tp cs fp =
      ({ db := saveChunks cs.db fp (hashOf env fp)
             (env.extract (env.relative tp fp) (env.content fp)),
         extracted := cs.extracted ++ [fp] },
       (env.relative tp fp,
        env.extract (env.relative tp fp) (env.content fp))) := by
  have h' : getCachedChunks cs.db fp (env.hash (env.content fp)) = none := h
  simp [processFile, h']
  rfl

theorem processFile_snd (env : Env) (tp : String) (cs : CacheState)
    (fp : String) :
    (processFile env tp cs fp).2 = (env.relative tp fp, chunkOf env tp cs.db fp) := by
  cases h : getCachedChunks cs.db fp (hashOf env fp) with
  | some c => rw [processFile_hit h]; simp [chunkOf, h]
  | none => rw [processFile_miss h]; simp [chunkOf, h]

theorem processFile_db_frame (env : Env) (tp : String) (cs : CacheState)
    (fp : String) (q : String) (hq : q ≠ fp) :
    dbGet (processFile env tp cs fp).1.db q = dbGet cs.db q := by
  cases h : getCachedChunks cs.db fp (hashOf env fp) with
  | some c => rw [processFile_hit h]
  | none => rw [processFile_miss h]; exact dbGet_dbPut_ne _ _ _ _ hq

theorem processFile_extracted_sub (env : Env) (tp : String) (cs : CacheState)
    (fp : String) : cs.extracted ⊆ (processFile env tp cs fp).1.extracted := by
  cases h : getCachedChunks cs.db fp (hashOf env fp) with
  | some c => rw [processFile_hit h]; exact fun x hx => hx
  | none =>
    rw [processFile_miss h]
    simp

theorem processFile_covered (env : Env) (tp : String) (cs : CacheState)
    (fp : String) :
    getCachedChunks (processFile env tp cs fp).1.db fp (hashOf env fp) =
      some (chunkOf env tp cs.db fp) := by
  cases h : getCachedChunks cs.db fp (hashOf env fp) with
  | some c => rw [processFile_hit h]; simp [chunkOf, h]
  | none =>
    rw [processFile_miss h]
    simp only [chunkOf, h, saveChunks]
    exact getCachedChunks_dbPut_self _ _ _ _

theorem processFile_chunkOf (env : Env) (tp : String) (cs : CacheState)
    (fp q : String) :
    chunkOf env tp (processFile env tp cs fp).1.db q = chunkOf env tp cs.db q := by
  by_cases hq : q = fp
  · subst hq
    have h1 := processFile_covered env tp cs q
    simp [chunkOf, h1]
  · have h1 := processFile_db_frame env tp cs fp q hq
    simp [chunkOf, getCachedChunks_ext h1]

theorem processFile_preserves_covered {env : Env} {tp : String}
    {cs : CacheState} {q : String} {c : List BoundaryChunk} (fp : String)
    (h : getCachedChunks cs.db q (hashOf env q) = some c) :
    getCachedChunks (processFile env tp cs fp).1.db q (hashOf env q) = some c := by
  by_cases hq : q = fp
  · subst hq
    rw [processFile_hit h]
    exact h
  · rw [getCachedChunks_ext (processFile_db_frame _ _ _ _ q hq)]
    exact h

/-- C1: for every stored cache entry and every current hash, the lookup
returns the stored chunks exactly when the stored fingerprint equals the
current hash; an absent entry or a differing fingerprint yields null, and
in that case the pipeline re-extracts and overwrites the full entry with
the fresh fingerprint and chunks. -/
theorem getCachedChunks_spec (db : Db) (fp h : String) (env : Env)
    (tp : String) (cs : CacheState) :
    (∀ e, dbGet db fp = some e →
      (getCachedChunks db fp h = some e.chunks ↔ e.hash = h)) ∧
    (dbGet db fp = none → getCachedChunks db fp h = none) ∧
    (∀ e, dbGet db fp = some e → e.hash ≠ h → getCachedChunks db fp h = none) ∧
    (getCachedChunks cs.db fp (hashOf env fp) = none →
      processFile env tp cs fp =
        ({ db := dbPut cs.db fp
              ⟨hashOf env fp, env.extract (env.relative tp fp) (env.content fp)⟩,
           extracted := cs.extracted ++ [fp] },
         (env.relative tp fp,
          env.extract (env.relative tp fp) (env.content fp)))) := by
  refine ⟨?_, ?_, ?_, ?_⟩
  · intro e he
    constructor
    · intro hc
      have := getCachedChunks_eq_some hc
      rw [he] at this
      cases e
      simp_all
    · intro hh
      simp [getCachedChunks, he, hh]
  · intro he
    simp [getCachedChunks, he]
  · intro e he hh
    simp [getCachedChunks, he, hh]
  · intro hmiss
    exact processFile_miss hmiss

/-- Witness for C1 at a concrete store: a present entry with a differing
fingerprint yields null. -/
theorem getCachedChunks_spec_witness :
    getCachedChunks [("/p", ⟨"h1", []⟩)] "/p" "h2" = none := by
  refine (getCachedChunks_spec [("/p", ⟨"h1", []⟩)] "/p" "h2"
    ⟨fun _ => "", fun _ => "", fun _ _ => [], fun _ fp => fp⟩ "/r"
    ⟨[], []⟩).2.2.1 ⟨"h1", []⟩ (by simp [dbGet]) (by simp)

theorem processBatch_snd (env : Env) (tp : String) (cs : CacheState)
    (fps : List String) :
    (processBatch env tp cs fps).2 =
      fps.map (fun fp => (env.relative tp fp, chunkOf env tp cs.db fp)) := by
  induction fps generalizing cs with
  | nil => simp [processBatch]
  | cons fp rest ih =>
    simp only [processBatch, List.map_cons]
    rw [processFile_snd, ih]
    simp only [processFile_chunkOf]

theorem processBatch_preserves_covered {env : Env} {tp : String}
    {cs : CacheState} {q : String} {c : List BoundaryChunk}
    (fps : List String)
    (h : getCachedChunks cs.db q (hashOf env q) = some c) :
    getCachedChunks (processBatch env tp cs fps).1.db q (hashOf env q) = some c := by
  induction fps generalizing cs with
  | nil => simpa [processBatch] using h
  | cons fp rest ih =>
    simp only [processBatch]
    exact ih (processFile_preserves_covered fp h)

theorem processBatch_covered (env : Env) (tp : String) (cs : CacheState)
    {fp : String} (fps : List String) (hmem : fp ∈ fps) :
    getCachedChunks (processBatch env tp cs fps).1.db fp (hashOf env fp) =
      some (chunkOf env tp cs.db fp) := by
  induction fps generalizing cs with
  | nil => cases hmem
  | cons q rest ih =>
    simp only [processBatch]
    by_cases hq : fp = q
    · subst hq
      exact processBatch_preserves_covered rest (processFile_covered env tp cs fp)
    · have hrest : fp ∈ rest := by
        cases hmem with
        | head => exact absurd rfl hq
        | tail _ h => exact h
      rw [show chunkOf env tp cs.db fp =
            chunkOf env tp (processFile env tp cs q).1.db fp from
          (processFile_chunkOf env tp cs q fp).symm]
      exact ih _ hrest

theorem processBatch_chunkOf (env : Env) (tp : String) (cs : CacheState)
    (fps : List String) (q : String) :
    chunkOf env tp (processBatch env tp cs fps).1.db q = chunkOf env tp cs.db q := by
  induction fps generalizing cs with
  | nil => simp [processBatch]
  | cons fp rest ih =>
    simp only [processBatch]
    rw [ih, processFile_chunkOf]

theorem processBatch_frame (env : Env) (tp : String) (cs : CacheState)
    {q : String} (fps : List String) (hq : q ∉ fps) :
    dbGet (processBatch env tp cs fps).1.db q = dbGet cs.db q := by
  induction fps generalizing cs with
  | nil => simp [processBatch]
  | cons fp rest ih =>
    simp only [processBatch]
    have h1 : q ∉ rest := fun h => hq (List.mem_cons_of_mem _ h)
    have h2 : q ≠ fp := fun h => hq (h ▸ List.mem_cons_self _ _)
    rw [ih _ h1, processFile_db_frame env tp cs fp q h2]

theorem processBatch_allHit {env : Env} {tp : String} {cs : CacheState}
    (fps : List String)
    (h : ∀ fp ∈ fps, ∃ c, getCachedChunks cs.db fp (hashOf env fp) = some c) :
    (processBatch env tp cs fps).1 = cs := by
  induction fps generalizing cs with
  | nil => simp [processBatch]
  | cons fp rest ih =>
    obtain ⟨c, hc⟩ := h fp (List.mem_cons_self _ _)
    simp only [processBatch]
    rw [processFile_hit hc]
    exact ih (fun q hq => h q (List.mem_cons_of_mem _ hq))

theorem processBatch_extracted_sub (env : Env) (tp : String) (cs : CacheState)
    (fps : List String) :
    cs.extracted ⊆ (processBatch env tp cs fps).1.extracted := by
  induction fps generalizing cs with
  | nil => simp [processBatch]
  | cons fp rest ih =>
    simp only [processBatch]
    exact (processFile_extracted_sub env tp cs fp).trans (ih _)

theorem processBatch_mem_extracted (env : Env) (tp : String) (cs : CacheState)
    {fp : String} (fps : List String) (hmem : fp ∈ fps)
    (hmiss : getCachedChunks cs.db fp (hashOf env fp) = none) :
    fp ∈ (processBatch env tp cs fps).1.extracted := by
  induction fps generalizing cs with
  | nil => cases hmem
  | cons q rest ih =>
    simp only [processBatch]
    by_cases hq : fp = q
    · subst hq
      rw [processFile_miss hmiss]
      apply processBatch_extracted_sub
      simp
    · have hrest : fp ∈ rest := by
        cases hmem with
        | head => exact absurd rfl hq
        | tail _ h => exact h
      have hmiss' :
          getCachedChunks (processFile env tp cs q).1.db fp (hashOf env fp) = none := by
        rw [getCachedChunks_ext (processFile_db_frame _ _ _ _ fp hq)]
        exact hmiss
      exact ih _ hrest hmiss'

theorem processBatch_append (env : Env) (tp : String) (cs : CacheState)
    (l1 l2 : List String) :
    processBatch env tp cs (l1 ++ l2) =
      ((processBatch env tp (processBatch env tp cs l1).1 l2).1,
       (processBatch env tp cs l1).2 ++
         (processBatch env tp (processBatch env tp cs l1).1 l2).2) := by
  induction l1 generalizing cs with
  | nil => simp [processBatch]
  | cons fp rest ih =>
    rw [List.cons_append]
    simp only [processBatch]
    rw [ih]
    simp

theorem mergeResults_append (m : FileMap)
    (r1 r2 : List (String × List BoundaryChunk)) :
    mergeResults m (r1 ++ r2) = mergeResults (mergeResults m r1) r2 := by
  simp [mergeResults, List.foldl_append]

theorem chunkList_flatten (b : Nat) (l : List α) : (chunkList b l).flatten = l := by
  induction b, l using chunkList.induct with
  | case1 b => simp [chunkList]
  | case2 l h => simp [chunkList]
  | case3 b h t ih =>
    simp only [chunkList, List.flatten_cons, ih]
    exact List.take_append_drop _ _

theorem chunkList_length_le (b : Nat) (l : List α) (hb : 0 < b) :
    ∀ c ∈ chunkList b l, c.length ≤ b := by
  revert hb
  induction b, l using chunkList.induct with
  | case1 b => simp [chunkList]
  | case2 l h => exact fun hb => absurd hb (by simp)
  | case3 b h t ih =>
    intro hb c hc
    simp only [chunkList] at hc
    cases hc with
    | head => simp [List.length_take_le]
    | tail _ htl => exact ih hb c htl

theorem runFrom_fold (env : Env) (tp : String) (b : Nat) (fps : List String) :
    ∀ (cs : CacheState) (fm : FileMap),
      (chunkList b fps).foldl
        (fun acc batch =>
          let done := processBatch env tp acc.1 batch
          (done.1, mergeResults acc.2 done.2)) (cs, fm) =
      ((processBatch env tp cs fps).1,
       mergeResults fm (processBatch env tp cs fps).2) := by
  induction b, fps using chunkList.induct with
  | case1 b => intro cs fm; simp [chunkList, processBatch, mergeResults]
  | case2 l h => intro cs fm; simp [chunkList]
  | case3 b h t ih =>
    intro cs fm
    simp only [chunkList, List.foldl_cons]
    rw [ih]
    conv =>
      rhs
      rw [show (h :: t) = (h :: t).take (b + 1) ++ (h :: t).drop (b + 1) from
        (List.take_append_drop _ _).symm]
    rw [processBatch_append, mergeResults_append]

theorem runFrom_eq_runAll (env : Env) (tp : String) (fps : List String)
    (b : Nat) (db0 : Db) :
    runFrom env tp fps b db0 = runAll env tp fps db0 := by
  unfold runFrom runAll
  exact runFrom_fold env tp b fps ⟨db0, []⟩ []

/-- C10: with every read and extraction succeeding (the total-function
environment) the result map of a run does not depend on the batch size: any
two positive batch sizes give the same AnalysisResult. -/
theorem run_batchSize_independent (env : Env) (tp : String)
    (fps : List String) (db0 : Db) (b1 b2 : Nat)
    (hb1 : 0 < b1) (hb2 : 0 < b2) :
    (runFrom env tp fps b1 db0).2 = (runFrom env tp fps b2 db0).2 := by
  rw [runFrom_eq_runAll, runFrom_eq_runAll]

/-- C2: running the pipeline twice over the same tree with unchanged
contents gives the same result map, and the second run performs zero
extractor invocations. -/
theorem run_idempotent (env : Env) (tp : String) (fps : List String)
    (b : Nat) (db0 : Db) :
    (runFrom env tp fps b (runFrom env tp fps b db0).1.db).2 =
      (runFrom env tp fps b db0).2 ∧
    (runFrom env tp fps b (runFrom env tp fps b db0).1.db).1.extracted = [] := by
  simp only [runFrom_eq_runAll]
  unfold runAll
  have hhit : ∀ fp ∈ fps,
      ∃ c, getCachedChunks (processBatch env tp ⟨db0, []⟩ fps).1.db fp
        (hashOf env fp) = some c :=
    fun fp hfp => ⟨_, processBatch_covered env tp ⟨db0, []⟩ fps hfp⟩
  have hstate :
      (processBatch env tp ⟨(processBatch env tp ⟨db0, []⟩ fps).1.db, []⟩ fps).1 =
        ⟨(processBatch env tp ⟨db0, []⟩ fps).1.db, []⟩ :=
    processBatch_allHit fps hhit
  constructor
  · simp only [hstate]
    congr 1
    rw [processBatch_snd, processBatch_snd]
    have : ∀ q, chunkOf env tp (processBatch env tp ⟨db0, []⟩ fps).1.db q =
        chunkOf env tp (⟨db0, []⟩ : CacheState).db q :=
      processBatch_chunkOf env tp ⟨db0, []⟩ fps
    simp only [this]
  · rw [hstate]

/-- C8: the default filter returns false exactly for nodes whose kind label
contains the substring import, and true for every other node. -/
theorem default_filter_spec (node : ChopperNode) :
    (chopperFilter () node = false ↔
      ∃ l r, node.type.data = l ++ ("import").data ++ r) ∧
    (chopperFilter () node = true ↔
      ¬ ∃ l r, node.type.data = l ++ ("import").data ++ r) := by
  have hinf : ("import").data <:+: node.type.data ↔
      ∃ l r, node.type.data = l ++ ("import").data ++ r := by
    constructor
    · rintro ⟨s, t, hst⟩
      exact ⟨s, t, hst.symm⟩
    · rintro ⟨l, r, hlr⟩
      exact ⟨l, r, hlr.symm⟩
  constructor
  · rw [← hinf]
    simp [chopperFilter, jsIncludes]
  · rw [← hinf]
    simp [chopperFilter, jsIncludes]

theorem dbPut_isSome {db : Db} {q : String} {e : CacheEntry}
    (k : String) (e2 : CacheEntry) (h : dbGet db q = some e) :
    ∃ e', dbGet (dbPut db k e2) q = some e' := by
  rw [dbGet_dbPut]
  by_cases hq : q = k
  · exact ⟨e2, by simp [hq]⟩
  · exact ⟨e, by simp [hq, h]⟩

theorem processFile_db_isSome (env : Env) (tp : String) {cs : CacheState}
    {q : String} {e : CacheEntry} (fp : String)
    (h : dbGet cs.db q = some e) :
    ∃ e', dbGet (processFile env tp cs fp).1.db q = some e' := by
  cases hc : getCachedChunks cs.db fp (hashOf env fp) with
  | some c => rw [processFile_hit hc]; exact ⟨e, h⟩
  | none =>
    rw [processFile_miss hc]
    exact dbPut_isSome fp _ h

theorem processBatch_db_isSome (env : Env) (tp : String) (cs : CacheState)
    {q : String} {e : CacheEntry} (fps : List String)
    (h : dbGet cs.db q = some e) :
    ∃ e', dbGet (processBatch env tp cs fps).1.db q = some e' := by
  induction fps generalizing cs e with
  | nil => exact ⟨e, by simpa [processBatch] using h⟩
  | cons fp rest ih =>
    simp only [processBatch]
    obtain ⟨e1, he1⟩ := processFile_db_isSome env tp fp h
    exact ih _ he1

/-- C3: when the content of a cached file changes so that its fingerprint
no longer matches the stored one, the stale entry is invalid (the lookup
misses), and the next run re-extracts that file and overwrites its entry
with the new fingerprint and the newly extracted chunks. -/
theorem invalidation_forces_reextraction (env : Env) (tp : String)
    (fps : List String) (b : Nat) (db0 : Db) (fp : String) (oldE : CacheEntry)
    (hmem : fp ∈ fps)
    (hold : dbGet db0 fp = some oldE)
    (hchanged : hashOf env fp ≠ oldE.hash) :
    getCachedChunks db0 fp (hashOf env fp) = none ∧
    fp ∈ (runFrom env tp fps b db0).1.extracted ∧
    dbGet (runFrom env tp fps b db0).1.db fp =
      some ⟨hashOf env fp, env.extract (env.relative tp fp) (env.content fp)⟩ := by
  have hmiss : getCachedChunks db0 fp (hashOf env fp) = none := by
    unfold getCachedChunks
    rw [hold]
    simp only []
    rw [if_neg (fun h => hchanged h.symm)]
  refine ⟨hmiss, ?_, ?_⟩
  · rw [runFrom_eq_runAll]
    exact processBatch_mem_extracted env tp ⟨db0, []⟩ fps hmem hmiss
  · rw [runFrom_eq_runAll]
    have hcov := processBatch_covered env tp ⟨db0, []⟩ fps hmem
    have hchunk : chunkOf env tp db0 fp =
        env.extract (env.relative tp fp) (env.content fp) := by
      simp [chunkOf, hmiss]
    rw [hchunk] at hcov
    exact getCachedChunks_eq_some hcov

/-- Witness for C3: the stale entry for /r/a is re-extracted and its cache
entry is overwritten with the fresh fingerprint and chunks. -/
theorem invalidation_forces_reextraction_witness :
    getCachedChunks db0W "/r/a" (hashOf envW "/r/a") = none ∧
    "/r/a" ∈ (runFrom envW "/r" ["/r/a"] 50 db0W).1.extracted ∧
    dbGet (runFrom envW "/r" ["/r/a"] 50 db0W).1.db "/r/a" =
      some ⟨hashOf envW "/r/a",
        envW.extract (envW.relative "/r" "/r/a") (envW.content "/r/a")⟩ :=
  invalidation_forces_reextraction envW "/r" ["/r/a"] 50 db0W "/r/a"
    ⟨"old", [⟨"x", ⟨none, []⟩⟩]⟩ (by decide) (by decide) (by decide)

theorem mem_mapSet {m : FileMap} {k : String} {v : List BoundaryChunk}
    {p : String × List BoundaryChunk} (hp : p ∈ mapSet m k v) :
    p ∈ m ∨ p = (k, v) := by
  unfold mapSet at hp
  by_cases ha : m.any (fun q => q.1 = k)
  · rw [if_pos ha] at hp
    obtain ⟨q, hq, hpq⟩ := List.mem_map.mp hp
    by_cases hqk : q.1 = k
    · right; rw [← hpq]; simp [hqk]
    · left; rw [← hpq]; simpa [hqk] using hq
  · rw [if_neg ha] at hp
    rcases List.mem_append.mp hp with h | h
    · exact Or.inl h
    · right; simpa using h

theorem mergeResults_nonempty {m : FileMap}
    (rs : List (String × List BoundaryChunk))
    (hm : ∀ p ∈ m, p.2 ≠ []) :
    ∀ p ∈ mergeResults m rs, p.2 ≠ [] := by
  induction rs generalizing m with
  | nil => exact hm
  | cons r rest ih =>
    simp only [mergeResults, List.foldl_cons]
    apply ih
    intro p hp
    unfold mergeOne at hp
    by_cases hr : r.2.length > 0
    · rw [if_pos hr] at hp
      rcases mem_mapSet hp with h | h
      · exact hm p h
      · rw [h]
        simpa [List.length_pos] using hr
    · rw [if_neg hr] at hp
      exact hm p hp

theorem mem_mergeResults {m : FileMap} {k : String} {cs : List BoundaryChunk}
    (rs : List (String × List BoundaryChunk))
    (h : (k, cs) ∈ mergeResults m rs) :
    (∃ cs', (k, cs') ∈ m) ∨ ∃ r ∈ rs, r.1 = k ∧ r.2 ≠ [] := by
  induction rs generalizing m with
  | nil => exact Or.inl ⟨cs, h⟩
  | cons r rest ih =>
    simp only [mergeResults, List.foldl_cons] at h
    rcases ih h with hmem | ⟨r', hr', hk⟩
    · obtain ⟨cs', hcs'⟩ := hmem
      unfold mergeOne at hcs'
      by_cases hr : r.2.length > 0
      · rw [if_pos hr] at hcs'
        rcases mem_mapSet hcs' with hin | heq
        · exact Or.inl ⟨cs', hin⟩
        · refine Or.inr ⟨r, List.mem_cons_self _ _, ?_, ?_⟩
          · exact (congrArg Prod.fst heq).symm ▸ rfl
          · have : cs' = r.2 := congrArg Prod.snd heq
            rw [← this]
            intro hnil
            rw [hnil] at this
            rw [← this] at hr
            simp at hr
      · rw [if_neg hr] at hcs'
        exact Or.inl ⟨cs', hcs'⟩
    · exact Or.inr ⟨r', List.mem_cons_of_mem _ hr', hk⟩

/-- C7: every binding of the result map has a nonempty chunk list, and a
file whose extraction (fresh or cached) yields zero chunks never appears as
a key of the result map (no other listed file sharing its relative path). -/
theorem result_omits_empty (env : Env) (tp : String) (fps : List String)
    (b : Nat) (db0 : Db) (fp : String) :
    (∀ p ∈ (runFrom env tp fps b db0).2, p.2 ≠ []) ∧
    ((∀ q ∈ fps, env.relative tp q = env.relative tp fp → q = fp) →
      chunkOf env tp db0 fp = [] →
      ∀ cs, (env.relative tp fp, cs) ∉ (runFrom env tp fps b db0).2) := by
  rw [runFrom_eq_runAll]
  unfold runAll
  constructor
  · exact mergeResults_nonempty _ (by simp)
  · intro hinj hempty cs hmem
    rcases mem_mergeResults _ hmem with ⟨cs', hcs'⟩ | ⟨r, hr, hk, hne⟩
    · simp at hcs'
    · rw [processBatch_snd] at hr
      obtain ⟨q, hq, hrq⟩ := List.mem_map.mp hr
      have h1 : env.relative tp q = env.relative tp fp := by
        rw [← hk, ← hrq]
      have h2 : q = fp := hinj q hq h1
      apply hne
      rw [← hrq]
      simp only []
      rw [h2]
      exact hempty

/-- Witness for C7: the empty file /r/e contributes no key to the result. -/
theorem result_omits_empty_witness :
    chunkOf envW "/r" [] "/r/e" = [] ∧
    ∀ cs, (envW.relative "/r" "/r/e", cs) ∉
      (runFrom envW "/r" ["/r/a", "/r/e"] 50 []).2 :=
  ⟨by decide,
   (result_omits_empty envW "/r" ["/r/a", "/r/e"] 50 [] "/r/e").2
     (by decide) (by decide)⟩

/-- C9: a run never touches cache entries of files outside the given list,
never deletes any entry, and performs no write at all for a file whose
lookup hit. -/
theorem run_cache_frame (env : Env) (tp : String) (fps : List String)
    (b : Nat) (db0 : Db) (cs : CacheState) (fp : String) :
    (∀ q, q ∉ fps → dbGet (runFrom env tp fps b db0).1.db q = dbGet db0 q) ∧
    (∀ q e, dbGet db0 q = some e →
      ∃ e', dbGet (runFrom env tp fps b db0).1.db q = some e') ∧
    (∀ c, getCachedChunks cs.db fp (hashOf env fp) = some c →
      (processFile env tp cs fp).1 = cs) := by
  refine ⟨?_, ?_, ?_⟩
  · intro q hq
    rw [runFrom_eq_runAll]
    exact processBatch_frame env tp ⟨db0, []⟩ fps hq
  · intro q e he
    rw [runFrom_eq_runAll]
    exact processBatch_db_isSome env tp ⟨db0, []⟩ fps he
  · intro c hc
    rw [processFile_hit hc]

/-- Witness for C9: a run over /r/a leaves the unrelated key /q untouched. -/
theorem run_cache_frame_witness :
    dbGet (runFrom envW "/r" ["/r/a"] 50 db0W).1.db "/q" = dbGet db0W "/q" :=
  (run_cache_frame envW "/r" ["/r/a"] 50 db0W ⟨db0W, []⟩ "/r/a").1 "/q" (by decide)

/-- Witness for C10: batch sizes 1 and 2 produce the same result map. -/
theorem run_batchSize_independent_witness :
    (runFrom envW "/r" ["/r/a", "/r/e", "/r/c"] 1 []).2 =
      (runFrom envW "/r" ["/r/a", "/r/e", "/r/c"] 2 []).2 :=
  run_batchSize_independent envW "/r" ["/r/a", "/r/e", "/r/c"] [] 1 2
    (by decide) (by decide)

theorem startsWith_iff (pre s : String) :
    startsWith pre s = true ↔ pre.data <+: s.data := by
  simp [startsWith]

theorem string_lt_iff_lex (a b : String) :
    a < b ↔ List.Lex (· < ·) a.data b.data := by
  rw [String.lt_iff_toList_lt]
  exact Iff.rfl

theorem charListLt_iff (a : List Char) :
    ∀ b, charListLt a b = true ↔ List.Lex (· < ·) a b := by
  induction a with
  | nil =>
    intro b
    cases b with
    | nil =>
      constructor
      · intro h; simp [charListLt] at h
      · intro h; exact absurd h (List.Lex.not_nil_right _ _)
    | cons x bs =>
      constructor
      · intro _; exact List.Lex.nil
      · intro _; rfl
  | cons a as ih =>
    intro b
    cases b with
    | nil =>
      constructor
      · intro h; simp [charListLt] at h
      · intro h; exact absurd h (List.Lex.not_nil_right _ _)
    | cons x bs =>
      rcases lt_trichotomy a x with h | h | h
      · constructor
        · intro _
          exact List.Lex.rel h
        · intro _
          simp [charListLt, if_pos h]
      · subst h
        simp only [charListLt, if_neg (lt_irrefl a)]
        rw [List.Lex.cons_iff]
        exact ih bs
      · simp only [charListLt, if_neg (asymm h), if_pos h]
        constructor
        · intro hf; cases hf
        · intro hlex
          cases hlex with
          | cons h2 => exact absurd h (lt_irrefl _)
          | rel h2 => exact absurd h2 (asymm h)

theorem strLt_iff (a b : String) : strLt a b = true ↔ a < b := by
  rw [string_lt_iff_lex]
  exact charListLt_iff a.data b.data

theorem not_lex_of_pfx {pre k : List Char} (h : pre <+: k) :
    ¬ List.Lex (· < ·) k pre := by
  induction pre generalizing k with
  | nil => exact List.Lex.not_nil_right _ _
  | cons p ps ih =>
    obtain ⟨t, rfl⟩ := h
    rw [List.cons_append]
    intro hlex
    exact ih (List.prefix_append ps t) (List.Lex.cons_iff.mp hlex)

theorem lex_lt_of_pfx {pre a b : List Char}
    (ha : ¬ List.Lex (· < ·) a pre) (hpa : ¬ pre <+: a) (hpb : pre <+: b) :
    List.Lex (· < ·) b a := by
  induction pre generalizing a b with
  | nil => exact absurd (List.nil_prefix) hpa
  | cons p ps ih =>
    cases a with
    | nil => exact absurd List.Lex.nil ha
    | cons x xs =>
      obtain ⟨t, rfl⟩ := hpb
      rw [List.cons_append]
      rcases lt_trichotomy p x with hpx | heq | hxp
      · exact List.Lex.rel hpx
      · subst heq
        have ha' : ¬ List.Lex (· < ·) xs ps := by
          intro h
          exact ha (List.Lex.cons h)
        have hpa' : ¬ ps <+: xs := by
          intro h
          obtain ⟨t', rfl⟩ := h
          exact hpa ⟨t', by rw [List.cons_append]⟩
        exact List.Lex.cons (ih ha' hpa' (List.prefix_append ps t))
      · exact absurd (List.Lex.rel hxp) ha

theorem startsWith_not_lt {pre k : String} (h : startsWith pre k = true) :
    ¬ k < pre := by
  rw [string_lt_iff_lex]
  exact not_lex_of_pfx ((startsWith_iff pre k).mp h)

theorem lt_of_startsWith {pre a b : String}
    (ha : ¬ a < pre) (hpa : startsWith pre a = false)
    (hpb : startsWith pre b = true) : b < a := by
  rw [string_lt_iff_lex]
  rw [string_lt_iff_lex] at ha
  refine lex_lt_of_pfx ha ?_ ((startsWith_iff pre b).mp hpb)
  intro hp
  rw [(startsWith_iff pre a).mpr hp] at hpa
  cases hpa

theorem dropWhile_ge (pre : String) (l : Db)
    (hs : l.Pairwise (fun p q => strLt p.1 q.1 = true)) :
    ∀ x ∈ l.dropWhile (fun p => strLt p.1 pre), ¬ x.1 < pre := by
  induction l with
  | nil => simp
  | cons hd rest ih =>
    rw [List.pairwise_cons] at hs
    rw [List.dropWhile_cons]
    by_cases hk : hd.1 < pre
    · rw [if_pos ((strLt_iff _ _).mpr hk)]
      exact ih hs.2
    · rw [if_neg (fun hb => hk ((strLt_iff _ _).mp hb))]
      intro x hx
      rcases List.mem_cons.mp hx with heq | hx
      · rw [heq]; exact hk
      · have hlt : hd.1 < x.1 := (strLt_iff _ _).mp (hs.1 x hx)
        exact not_lt.mpr (le_of_lt (lt_of_le_of_lt (le_of_not_lt hk) hlt))

theorem takeWhile_eq_filter_of_ge (pre : String) (l : Db)
    (hs : l.Pairwise (fun p q => strLt p.1 q.1 = true))
    (hge : ∀ x ∈ l, ¬ x.1 < pre) :
    l.takeWhile (fun p => startsWith pre p.1) =
      l.filter (fun p => startsWith pre p.1) := by
  induction l with
  | nil => rfl
  | cons hd rest ih =>
    rw [List.pairwise_cons] at hs
    rw [List.takeWhile_cons, List.filter_cons]
    cases hpk : startsWith pre hd.1 with
    | true =>
      rw [if_pos rfl, if_pos rfl]
      exact congrArg _ (ih hs.2 (fun x hx => hge x (List.mem_cons_of_mem _ hx)))
    | false =>
      rw [if_neg Bool.false_ne_true, if_neg Bool.false_ne_true]
      symm
      rw [List.filter_eq_nil_iff]
      intro x hx hpx
      have hxk : x.1 < hd.1 :=
        lt_of_startsWith (hge hd (List.mem_cons_self _ _)) hpk hpx
      have hkx : hd.1 < x.1 := (strLt_iff _ _).mp (hs.1 x hx)
      exact absurd hkx (lt_asymm hxk)

theorem filter_pfx_dropWhile (pre : String) (l : Db)
    (hs : l.Pairwise (fun p q => strLt p.1 q.1 = true)) :
    l.filter (fun p => startsWith pre p.1) =
      (l.dropWhile (fun p => strLt p.1 pre)).filter
        (fun p => startsWith pre p.1) := by
  induction l with
  | nil => rfl
  | cons hd rest ih =>
    rw [List.pairwise_cons] at hs
    rw [List.dropWhile_cons]
    by_cases hk : hd.1 < pre
    · rw [if_pos ((strLt_iff _ _).mpr hk)]
      have hpk : startsWith pre hd.1 = false := by
        cases hp : startsWith pre hd.1 with
        | false => rfl
        | true => exact absurd hk (startsWith_not_lt hp)
      rw [List.filter_cons, if_neg (by simp [hpk])]
      exact ih hs.2
    · rw [if_neg (fun hb => hk ((strLt_iff _ _).mp hb))]

theorem range_scan_eq_filter (pre : String) (db : Db) (hs : DbSorted db) :
    (db.dropWhile (fun p => strLt p.1 pre)).takeWhile
        (fun p => startsWith pre p.1) =
      db.filter (fun p => startsWith pre p.1) := by
  rw [filter_pfx_dropWhile pre db hs]
  exact takeWhile_eq_filter_of_ge pre _
    (List.Pairwise.sublist (List.dropWhile_sublist _) hs)
    (dropWhile_ge pre db hs)

/-- C4: on a sorted store, the directory-scoped clear removes exactly the
entries whose key has the directory path as a literal string prefix, leaves
every other entry untouched, and returns the number of removed entries,
even though it only scans the contiguous sorted-key range starting at the
path and stops at the first key without the prefix. -/
theorem clearDirectoryCache_spec (db : Db) (pre : String) (hs : DbSorted db) :
    (clearDirectoryCache db pre).1 =
      db.filter (fun p => ! startsWith pre p.1) ∧
    (clearDirectoryCache db pre).2 =
      (db.filter (fun p => startsWith pre p.1)).length := by
  unfold clearDirectoryCache
  simp only [range_scan_eq_filter pre db hs]
  constructor
  · apply List.filter_congr
    intro p hp
    cases hpfx : startsWith pre p.1 with
    | true =>
      have hmem : p.1 ∈ (db.filter (fun q => startsWith pre q.1)).map
          (fun q => q.1) :=
        List.mem_map.mpr ⟨p, List.mem_filter.mpr ⟨hp, hpfx⟩, rfl⟩
      simp [hmem, hpfx]
    | false =>
      have hmem : p.1 ∉ (db.filter (fun q => startsWith pre q.1)).map
          (fun q => q.1) := by
        intro hin
        obtain ⟨q, hq, hqp⟩ := List.mem_map.mp hin
        have hqf := (List.mem_filter.mp hq).2
        rw [hqp] at hqf
        rw [hpfx] at hqf
        cases hqf
      simp [hmem, hpfx]
  · simp

/-- Witness for C4: clearing the prefix /a removes the keys /a/x and /ab,
keeps /b, and reports two removals. -/
theorem clearDirectoryCache_spec_witness :
    (clearDirectoryCache
        [("/a/x", ⟨"h", []⟩), ("/ab", ⟨"h", []⟩), ("/b", ⟨"h", []⟩)] "/a").1 =
      [("/b", ⟨"h", []⟩)] ∧
    (clearDirectoryCache
        [("/a/x", ⟨"h", []⟩), ("/ab", ⟨"h", []⟩), ("/b", ⟨"h", []⟩)] "/a").2 = 2 := by
  have h := clearDirectoryCache_spec
    [("/a/x", ⟨"h", []⟩), ("/ab", ⟨"h", []⟩), ("/b", ⟨"h", []⟩)] "/a"
    (by unfold DbSorted; decide)
  rw [h.1, h.2]
  decide

theorem processFileE_read_error {ε : Type} {env : EnvE ε} {fp : String}
    {e : ε} (tp : String) (cs : CacheState)
    (h : env.content fp = .error e) :
    processFileE env tp cs fp = .error e := by
  simp [processFileE, h]

theorem processFileE_extract_error {ε : Type} {env : EnvE ε} {fp : String}
    {e : ε} {c : String} (tp : String) (cs : CacheState)
    (hc : env.content fp = .ok c)
    (hmiss : getCachedChunks cs.db fp (env.hash c) = none)
    (hex : env.extract (env.relative tp fp) c = .error e) :
    processFileE env tp cs fp = .error e := by
  simp [processFileE, hc, hmiss, hex]

theorem processFileE_ok {ε : Type} {env : EnvE ε} {q : String}
    (tp : String) (cs : CacheState)
    (hq : ∃ c, env.content q = .ok c ∧
      ∃ cks, env.extract (env.relative tp q) c = .ok cks) :
    ∃ out, processFileE env tp cs q = .ok out ∧
      ∀ k, k ≠ q → dbGet out.1.db k = dbGet cs.db k := by
  obtain ⟨c, hc, cks, hcks⟩ := hq
  cases hl : getCachedChunks cs.db q (env.hash c) with
  | some stored =>
    refine ⟨(cs, (env.relative tp q, stored)), ?_, fun k _ => rfl⟩
    simp [processFileE, hc, hl]
  | none =>
    refine ⟨({ db := saveChunks cs.db q (env.hash c) cks,
               extracted := cs.extracted ++ [q] },
             (env.relative tp q, cks)), ?_, ?_⟩
    · simp [processFileE, hc, hl, hcks]
    · intro k hk
      exact dbGet_dbPut_ne _ _ _ _ hk

theorem processBatchE_error {ε : Type} {env : EnvE ε} {fp : String} {e : ε}
    (tp : String) (post : List String) :
    ∀ (pre : List String) (cs : CacheState),
      (∀ q ∈ pre, ∃ c, env.content q = .ok c ∧
        ∃ cks, env.extract (env.relative tp q) c = .ok cks) →
      fp ∉ pre →
      (∀ cs' : CacheState, dbGet cs'.db fp = dbGet cs.db fp →
        processFileE env tp cs' fp = .error e) →
      processBatchE env tp cs (pre ++ fp :: post) = .error e := by
  intro pre
  induction pre with
  | nil =>
    intro cs _ _ hf
    have hstep : processFileE env tp cs fp = .error e := hf cs rfl
    simp [processBatchE, hstep]
  | cons q pre' ih =>
    intro cs hpre hnot hf
    have hq := hpre q (List.mem_cons_self _ _)
    obtain ⟨out, hout, hframe⟩ := processFileE_ok tp cs hq
    have hne : fp ≠ q := fun h => hnot (h ▸ List.mem_cons_self _ _)
    rw [List.cons_append]
    simp only [processBatchE, hout]
    have htail : processBatchE env tp out.1 (pre' ++ fp :: post) = .error e := by
      refine ih out.1 (fun r hr => hpre r (List.mem_cons_of_mem _ hr))
        (fun h => hnot (List.mem_cons_of_mem _ h)) ?_
      intro cs' hcs'
      exact hf cs' (by rw [hcs', hframe fp hne])
    simp [htail]

theorem processBatchE_append {ε : Type} (env : EnvE ε) (tp : String)
    (l1 l2 : List String) :
    ∀ cs : CacheState,
      processBatchE env tp cs (l1 ++ l2) =
        match processBatchE env tp cs l1 with
        | .error err => .error err
        | .ok d1 =>
          match processBatchE env tp d1.1 l2 with
          | .error err => .error err
          | .ok d2 => .ok (d2.1, d1.2 ++ d2.2) := by
  induction l1 with
  | nil =>
    intro cs
    simp only [List.nil_append, processBatchE]
    cases h : processBatchE env tp cs l2 with
    | error e => rfl
    | ok d => rfl
  | cons fp rest ih =>
    intro cs
    rw [List.cons_append]
    simp only [processBatchE]
    cases h1 : processFileE env tp cs fp with
    | error e => rfl
    | ok step =>
      dsimp only
      rw [ih step.1]
      cases h2 : processBatchE env tp step.1 rest with
      | error e => rfl
      | ok d1 =>
        dsimp only
        cases h3 : processBatchE env tp d1.1 l2 with
        | error e => rfl
        | ok d2 => rfl

theorem runE_fold {ε : Type} (env : EnvE ε) (tp : String) (b : Nat)
    (fps : List String) :
    ∀ (cs : CacheState) (fm : FileMap),
      (chunkList b fps).foldl
        (fun acc batch =>
          match acc with
          | Except.error err => Except.error err
          | Except.ok st =>
            match processBatchE env tp st.1 batch with
            | Except.error err => Except.error err
            | Except.ok done => Except.ok (done.1, mergeResults st.2 done.2))
        (Except.ok (cs, fm) : Except ε (CacheState × FileMap)) =
      match processBatchE env tp cs fps with
      | Except.error err => Except.error err
      | Except.ok d => Except.ok (d.1, mergeResults fm d.2) := by
  have herr : ∀ (l : List (List String)) (e : ε),
      l.foldl
        (fun acc batch =>
          match acc with
          | Except.error err => Except.error err
          | Except.ok st =>
            match processBatchE env tp st.1 batch with
            | Except.error err => Except.error err
            | Except.ok done => Except.ok (done.1, mergeResults st.2 done.2))
        (Except.error e : Except ε (CacheState × FileMap)) = Except.error e := by
    intro l e
    induction l with
    | nil => rfl
    | cons hd tl ih => simpa [List.foldl_cons] using ih
  induction b, fps using chunkList.induct with
  | case1 b =>
    intro cs fm
    simp [chunkList, processBatchE, mergeResults]
  | case2 l h =>
    intro cs fm
    simp only [chunkList, List.foldl_cons, List.foldl_nil]
  | case3 b h t ih =>
    intro cs fm
    simp only [chunkList, List.foldl_cons]
    conv =>
      rhs
      rw [show ((h :: t) : List String) =
        (h :: t).take (b + 1) ++ (h :: t).drop (b + 1) from
        (List.take_append_drop _ _).symm]
    rw [processBatchE_append]
    cases hb : processBatchE env tp cs ((h :: t).take (b + 1)) with
    | error e => exact herr _ e
    | ok d1 =>
      dsimp only
      rw [ih d1.1 (mergeResults fm d1.2)]
      cases hd : processBatchE env tp d1.1 ((h :: t).drop (b + 1)) with
      | error e => rfl
      | ok d2 =>
        dsimp only
        rw [mergeResults_append]

/-- C5: if any single file read or extraction fails during a run while
every earlier file succeeds, the whole run aborts: the returned value is
exactly the original error of the failing operation, unwrapped, with no
retry and no partial result map. -/
theorem run_fail_fast {ε : Type} (env : EnvE ε) (tp : String)
    (fps : List String) (b : Nat) (db0 : Db) (pre post : List String)
    (fp : String) (e : ε)
    (hsplit : fps = pre ++ fp :: post)
    (hpre : ∀ q ∈ pre, ∃ c, env.content q = .ok c ∧
      ∃ cks, env.extract (env.relative tp q) c = .ok cks)
    (hnot : fp ∉ pre)
    (hfail : env.content fp = .error e ∨
      ∃ c, env.content fp = .ok c ∧
        getCachedChunks db0 fp (env.hash c) = none ∧
        env.extract (env.relative tp fp) c = .error e) :
    runE env tp fps b db0 = .error e := by
  have hbatch : processBatchE env tp ⟨db0, []⟩ fps = .error e := by
    rw [hsplit]
    refine processBatchE_error tp post pre ⟨db0, []⟩ hpre hnot ?_
    intro cs' hcs'
    rcases hfail with hr | ⟨c, hc, hmiss, hex⟩
    · exact processFileE_read_error tp cs' hr
    · refine processFileE_extract_error tp cs' hc ?_ hex
      rw [getCachedChunks_ext hcs']
      exact hmiss
  unfold runE
  rw [runE_fold]
  rw [hbatch]

/-- Witness for C5: the unreadable file /r/bad aborts the whole run with
its original error. -/
theorem run_fail_fast_witness :
    runE envEW "/r" ["/r/bad"] 50 [] = .error ("EACCES") :=
  run_fail_fast envEW "/r" ["/r/bad"] 50 [] [] [] "/r/bad" ("EACCES") rfl
    (by simp) (by simp) (Or.inl (by simp [envEW]))

theorem length_filter_mono {α : Type} (p q : α → Bool) (l : List α)
    (h : ∀ x ∈ l, p x = true → q x = true) :
    (l.filter p).length ≤ (l.filter q).length := by
  induction l with
  | nil => exact Nat.le_refl 0
  | cons x rest ih =>
    have hrest := ih (fun y hy => h y (List.mem_cons_of_mem _ hy))
    rw [List.filter_cons, List.filter_cons]
    cases hp : p x with
    | true =>
      rw [if_pos rfl, if_pos (h x (List.mem_cons_self _ _) hp)]
      simpa using hrest
    | false =>
      rw [if_neg Bool.false_ne_true]
      cases hq : q x with
      | true =>
        rw [if_pos rfl]
        exact Nat.le_trans hrest (by simp)
      | false =>
        rw [if_neg Bool.false_ne_true]
        exact hrest

theorem inFlight_le_of_forall_mem {B : Nat} {allfps batch : List String}
    {pref : List FileEv} (hnd : allfps.Nodup) (hlen : batch.length ≤ B)
    (hsub : ∀ fp ∈ allfps,
      (decide (FileEv.start fp ∈ pref) && ! decide (FileEv.finish fp ∈ pref)) = true →
      fp ∈ batch) :
    inFlight allfps pref ≤ B := by
  refine Nat.le_trans ?_ hlen
  refine List.Subperm.length_le ?_
  refine List.subperm_of_subset (List.Nodup.filter _ hnd) ?_
  intro fp hfp
  have hm := List.mem_filter.mp hfp
  exact hsub fp hm.1 hm.2

theorem inFlight_bound_aux {B : Nat} {batches : List (List String)}
    {trs : List (List FileEv)}
    (hvalid : List.Forall₂ BatchTrace batches trs) :
    (∀ bt ∈ batches, bt.length ≤ B) →
    ∀ allfps : List String, allfps.Nodup →
    ∀ pref suff : List FileEv, trs.flatten = pref ++ suff →
    inFlight allfps pref ≤ B := by
  induction hvalid with
  | nil =>
    intro _ allfps _ pref suff hsplit
    have hp : pref = [] := (List.append_eq_nil.mp hsplit.symm).1
    rw [hp]
    simp [inFlight]
  | @cons bt t bts ts hbt htail ih =>
    intro hlen allfps hnd pref suff hsplit
    obtain ⟨hment, hcomp⟩ := hbt
    rw [List.flatten_cons] at hsplit
    by_cases hle : pref.length ≤ t.length
    · have hp1 : pref <+: t ++ ts.flatten := ⟨suff, hsplit.symm⟩
      have hp2 : t <+: t ++ ts.flatten := List.prefix_append t ts.flatten
      have hpt : pref <+: t := List.prefix_of_prefix_length_le hp1 hp2 hle
      refine inFlight_le_of_forall_mem hnd (hlen bt (List.mem_cons_self _ _)) ?_
      intro fp _ hP
      simp only [Bool.and_eq_true, Bool.not_eq_eq_eq_not, Bool.not_true,
        decide_eq_true_eq, decide_eq_false_iff_not] at hP
      have hstart : FileEv.start fp ∈ t := hpt.subset hP.1
      exact hment (FileEv.start fp) hstart
    · have hlt : t.length ≤ pref.length := Nat.le_of_lt (Nat.lt_of_not_le hle)
      have hp1 : pref <+: t ++ ts.flatten := ⟨suff, hsplit.symm⟩
      have hp2 : t <+: t ++ ts.flatten := List.prefix_append t ts.flatten
      have htp : t <+: pref := List.prefix_of_prefix_length_le hp2 hp1 hlt
      obtain ⟨pref', rfl⟩ := htp
      have hflat : ts.flatten = pref' ++ suff := by
        rw [List.append_assoc] at hsplit
        exact List.append_cancel_left hsplit
      have hrec := ih (fun b hb => hlen b (List.mem_cons_of_mem _ hb))
        allfps hnd pref' suff hflat
      refine Nat.le_trans ?_ hrec
      unfold inFlight
      apply length_filter_mono
      intro fp _ hP
      simp only [Bool.and_eq_true, Bool.not_eq_eq_eq_not, Bool.not_true,
        decide_eq_true_eq, decide_eq_false_iff_not] at hP ⊢
      obtain ⟨hstart, hfin⟩ := hP
      rcases List.mem_append.mp hstart with hst | hst
      · exfalso
        have hmem : fp ∈ bt := hment (FileEv.start fp) hst
        have hfint : FileEv.finish fp ∈ t := hcomp fp hmem
        exact hfin (List.mem_append_left _ hfint)
      · exact ⟨hst, fun h => hfin (List.mem_append_right _ h)⟩

/-- C6: the run partitions the file list into consecutive batches of at
most batchSize files, batch N+1 starts only after the whole concurrent
group of batch N resolved (encoded in the shape of a valid run trace), and
along every such trace the number of in-flight file operations never
exceeds batchSize. -/
theorem batch_bound (B : Nat) (fps : List String) (trs : List (List FileEv))
    (hB : 0 < B) (hnd : fps.Nodup) (hvalid : ValidRunTrace B fps trs) :
    (chunkList B fps).flatten = fps ∧
    (∀ batch ∈ chunkList B fps, batch.length ≤ B) ∧
    (∀ pref suff : List FileEv, trs.flatten = pref ++ suff →
      inFlight fps pref ≤ B) := by
  refine ⟨chunkList_flatten B fps, chunkList_length_le B fps hB, ?_⟩
  intro pref suff hsplit
  exact inFlight_bound_aux hvalid (chunkList_length_le B fps hB)
    fps hnd pref suff hsplit

/-- Witness for C6: a two-batch trace of three files with batch size two
keeps at most two operations in flight. -/
theorem batch_bound_witness :
    (chunkList 2 ["a", "b", "c"]).flatten = ["a", "b", "c"] ∧
    (∀ batch ∈ chunkList 2 ["a", "b", "c"], batch.length ≤ 2) ∧
    (∀ pref suff : List FileEv,
      ([[FileEv.start ("a"), FileEv.start ("b"),
         FileEv.finish ("b"), FileEv.finish ("a")],
        [FileEv.start ("c"), FileEv.finish ("c")]] : List (List FileEv)).flatten =
        pref ++ suff →
      inFlight ["a", "b", "c"] pref ≤ 2) := by
  have hch : chunkList 2 ["a", "b", "c"] = [["a", "b"], ["c"]] := by
    simp [chunkList]
  refine batch_bound 2 ["a", "b", "c"]
    [[FileEv.start ("a"), FileEv.start ("b"),
      FileEv.finish ("b"), FileEv.finish ("a")],
     [FileEv.start ("c"), FileEv.finish ("c")]]
    (by decide) (by decide) ?_
  unfold ValidRunTrace
  rw [hch]
  refine List.Forall₂.cons ?_ (List.Forall₂.cons ?_ List.Forall₂.nil)
  · unfold BatchTrace
    decide
  · unfold BatchTrace
    decide
